import Mathlib

/-!
Verification of the adaptive-mesh-refinement (AMR) loop of the Poisson
tutorial notebook (`mesh_adaptivity.ipynb`).  The notebook's loop is

  SOLVE -> ESTIMATE -> MARK -> REFINE

and the development below embeds, over exact rational arithmetic, the
parts of it that the verified properties speak about:

* the stable descending ranking of cells by residual
  (`cell_ord_by_res`, notebook lines 318 and 539);
* the `ceil(0.05 * num_cells)` marking count (`num_cells_to_refine`);
* the per-marked-cell edge collection without deduplication (`collectEdges`);
* the assembled DG0 residual linear form (`assembleRes`), where a mesh is
  represented by per-cell areas, quadrature data for the volume integrand
  `div(grad(uh)) ± f`, and interior edges with quadrature data for the
  normal-derivative jump;
* the `while tot_residual > 5e-2` driver loop (`adaptLoop` / `runAMR`),
  modelled with explicit fuel so that non-termination is expressible.

Floating-point quantities of the notebook are modelled by exact rationals:
`5e-2` by `1/20`, `int(np.ceil(0.05*num_cells))` by `(n + 19) / 20` (for
every cell count representable in double precision the float computation
agrees with the exact ceiling, since `0.05` rounds to `1/20 * (1 + 2^-54)`
and the perturbation never crosses an integer), and the irrational form
coefficients `np.sqrt(2)` and `cell_area ** (1/2)` by explicit data
constrained to be non-negative (resp. to square to the area) in the
theorems that need it.
-/

namespace AMR

/-! ## Ranking: `cell_ord_by_res` (notebook lines 318 and 539)

The notebook ranks cells with
`sorted(enumerate(array_cell_res), key=lambda x: x[-1], reverse=True)`.
Python's `sorted` is stable, and `reverse=True` keeps equal-keyed elements
in their original relative order.  `insDesc`/`sortDesc` implement that
contract: an element is inserted before the first element whose value is
less than or equal to its own, so earlier elements stay ahead of later
elements with an equal value. -/

def insDesc (p : ℕ × ℚ) : List (ℕ × ℚ) → List (ℕ × ℚ)
| [] => [p]
| q :: qs => if q.2 ≤ p.2 then p :: q :: qs else q :: insDesc p qs

def sortDesc : List (ℕ × ℚ) → List (ℕ × ℚ)
| [] => []
| p :: ps => insDesc p (sortDesc ps)

/-- `cell_ord_by_res`: indices of all cells, ordered by residual value
descending, ties kept in index order (stable sort of `enumerate(...)`). -/
def cell_ord_by_res (res : List ℚ) : List ℕ :=
(sortDesc res.enum).map Prod.fst

/-- The strict order realised by the ranking: bigger value first,
equal values ordered by original index. -/
def RankRel (p q : ℕ × ℚ) : Prop :=
q.2 < p.2 ∨ (p.2 = q.2 ∧ p.1 < q.1)

theorem insDesc_perm (p : ℕ × ℚ) (l : List (ℕ × ℚ)) :
    (insDesc p l).Perm (p :: l) := by
  induction l with
  | nil => simp [insDesc]
  | cons q qs ih =>
      by_cases h : q.2 ≤ p.2
      · simp [insDesc, h]
      · simp only [insDesc, h, if_false]
        exact (ih.cons q).trans (List.Perm.swap p q qs)

theorem sortDesc_perm (l : List (ℕ × ℚ)) : (sortDesc l).Perm l := by
  induction l with
  | nil => simp [sortDesc]
  | cons p ps ih =>
      exact (insDesc_perm p (sortDesc ps)).trans (ih.cons p)

theorem pairwise_insDesc (p : ℕ × ℚ) (l : List (ℕ × ℚ))
    (hl : l.Pairwise RankRel)
    (hp : ∀ q ∈ l, p.2 = q.2 → p.1 < q.1) :
    (insDesc p l).Pairwise RankRel := by
  induction l with
  | nil => simp [insDesc, List.Pairwise]
  | cons q qs ih =>
      rcases List.pairwise_cons.mp hl with ⟨hq, hqs⟩
      by_cases h : q.2 ≤ p.2
      · simp only [insDesc, h, if_true]
        refine List.pairwise_cons.mpr ⟨?_, hl⟩
        intro x hx
        rcases List.mem_cons.mp hx with rfl | hx
        · rcases lt_or_eq_of_le h with hlt | heq
          · exact Or.inl hlt
          · exact Or.inr ⟨heq.symm, hp x (List.mem_cons_self x qs) heq.symm⟩
        · rcases hq x hx with hxlt | ⟨hxeq, _⟩
          · exact Or.inl (lt_of_lt_of_le hxlt h)
          · rcases lt_or_eq_of_le h with hlt | heq
            · exact Or.inl (hxeq ▸ hlt)
            · refine Or.inr ⟨by rw [← heq, hxeq], ?_⟩
              exact hp x (List.mem_cons_of_mem q hx) (by rw [← heq, hxeq])
      · simp only [insDesc, h, if_false]
        refine List.pairwise_cons.mpr ⟨?_, ?_⟩
        · intro x hx
          rcases List.mem_cons.mp ((insDesc_perm p qs).mem_iff.mp hx) with hx1 | hx2
          · rw [hx1]; exact Or.inl (lt_of_not_le h)
          · exact hq x hx2
        · exact ih hqs (fun x hx => hp x (List.mem_cons_of_mem q hx))

theorem pairwise_sortDesc (l : List (ℕ × ℚ))
    (h : l.Pairwise fun p q => p.1 < q.1) :
    (sortDesc l).Pairwise RankRel := by
  induction l with
  | nil => simp [sortDesc, List.Pairwise]
  | cons p ps ih =>
      rcases List.pairwise_cons.mp h with ⟨hp, hps⟩
      refine pairwise_insDesc p (sortDesc ps) (ih hps) ?_
      intro q hq _
      exact hp q ((sortDesc_perm ps).mem_iff.mp hq)

theorem enum_pairwise_fst (res : List ℚ) :
    res.enum.Pairwise fun p q => p.1 < q.1 := by
  rw [List.pairwise_iff_getElem]
  intro i j hi hj hij
  simp only [List.getElem_enum]
  simpa using hij

theorem mem_enum_val (res : List ℚ) (q : ℕ × ℚ) (hq : q ∈ res.enum) :
    q.2 = res.getD q.1 0 := by
  rw [List.mem_iff_getElem] at hq
  rcases hq with ⟨i, hi, hqi⟩
  have hi2 : i < res.length := by simpa using hi
  have heq : res.enum[i] = (i, res[i]) := List.getElem_enum res i hi
  rw [heq] at hqi
  rw [← hqi]
  exact (List.getD_eq_getElem res 0 hi2).symm

/-- Helper: the ranking is a permutation of `range n`. -/
theorem cell_ord_by_res_perm (res : List ℚ) :
    (cell_ord_by_res res).Perm (List.range res.length) := by
  have h1 : ((sortDesc res.enum).map Prod.fst).Perm (res.enum.map Prod.fst) :=
    (sortDesc_perm res.enum).map Prod.fst
  simpa [cell_ord_by_res, List.enum_map_fst] using h1

/-- C4: for every indicator vector, the ranking lists all cell indices,
ordered by indicator value descending, with ties broken by original index
order (stable descending sort). -/
theorem cell_ord_by_res_spec (res : List ℚ) :
    (cell_ord_by_res res).Perm (List.range res.length) ∧
    (cell_ord_by_res res).Pairwise
      (fun i j => res.getD j 0 < res.getD i 0 ∨
        (res.getD i 0 = res.getD j 0 ∧ i < j)) := by
  constructor
  · exact cell_ord_by_res_perm res
  · rw [cell_ord_by_res, List.pairwise_map]
    have hpw : (sortDesc res.enum).Pairwise RankRel :=
      pairwise_sortDesc res.enum (enum_pairwise_fst res)
    refine hpw.imp_of_mem ?_
    intro p q hp hq hrel
    have hmp : p ∈ res.enum := (sortDesc_perm res.enum).subset hp
    have hmq : q ∈ res.enum := (sortDesc_perm res.enum).subset hq
    have hvp := mem_enum_val res p hmp
    have hvq := mem_enum_val res q hmq
    rcases hrel with hlt | ⟨heq, hidx⟩
    · exact Or.inl (by rw [← hvp, ← hvq]; exact hlt)
    · exact Or.inr ⟨by rw [← hvp, ← hvq]; exact heq, hidx⟩

/-! ## Marking: `num_cells_to_refine` and `marked_cells`
(notebook lines 246, 320 and 540-541)

`int(np.ceil(0.05*num_cells))` is the exact ceiling of `n/20` (see the
header note on floating point), i.e. `(n + 19) / 20` in natural-number
division.  `marked_cells` keeps the first `num_cells_to_refine` entries of
the ranking, as in `cell_ord_by_res[0:num_cells_to_refine]`. -/

def num_cells_to_refine (n : ℕ) : ℕ := (n + 19) / 20

def marked_cells (res : List ℚ) : List ℕ :=
(cell_ord_by_res res).take (num_cells_to_refine res.length)

theorem num_cells_to_refine_eq_ceil (n : ℕ) :
    num_cells_to_refine n = (⌈(0.05 : ℚ) * n⌉).toNat := by
  have h1 : (0.05 : ℚ) * n = n / 20 := by norm_num; ring
  have hc1 : 20 * ((n + 19) / 20) < n + 20 := by omega
  have hc2 : n ≤ 20 * ((n + 19) / 20) := by omega
  have hq1 : (20 : ℚ) * (((n + 19) / 20 : ℕ) : ℚ) < (n : ℚ) + 20 := by
    exact_mod_cast hc1
  have hq2 : (n : ℚ) ≤ 20 * (((n + 19) / 20 : ℕ) : ℚ) := by
    exact_mod_cast hc2
  have h2 : ⌈(n : ℚ) / 20⌉ = (((n + 19) / 20 : ℕ) : ℤ) := by
    rw [Int.ceil_eq_iff]
    constructor
    · rw [Int.cast_natCast]
      linarith
    · rw [Int.cast_natCast]
      linarith
  rw [num_cells_to_refine, h1, h2]
  omega

theorem num_cells_to_refine_le (n : ℕ) : num_cells_to_refine n ≤ n := by
  rw [num_cells_to_refine]
  omega

theorem length_marked_cells (res : List ℚ) :
    (marked_cells res).length = num_cells_to_refine res.length := by
  have hlen : (cell_ord_by_res res).length = res.length :=
    (cell_ord_by_res_perm res).length_eq.trans (List.length_range _)
  rw [marked_cells, List.length_take, hlen]
  exact min_eq_left (num_cells_to_refine_le res.length)

/-- C3: in every iteration the number of marked cells is
`ceil(0.05 * cell_count)`; in particular 128 cells give 7 marked cells. -/
theorem marked_cells_count (res : List ℚ) :
    (marked_cells res).length = (⌈(0.05 : ℚ) * res.length⌉).toNat ∧
    (marked_cells (List.replicate 128 (0 : ℚ))).length = 7 := by
  constructor
  · rw [length_marked_cells, num_cells_to_refine_eq_ceil]
  · rw [length_marked_cells, List.length_replicate]
    rfl

/-! ## Edge collection (notebook lines 346-349 and 546-549)

The notebook appends, for each marked cell in order, every edge of that
cell, with no deduplication:

    edges=[]
    for cell in marked_cells:
        for e in c_to_e.links(cell):
            edges.append(e)
-/

def collectEdges (c_to_e : ℕ → List ℕ) (marked : List ℕ) : List ℕ :=
marked.foldl (fun acc c => acc ++ c_to_e c) []

theorem collectEdges_go (c_to_e : ℕ → List ℕ) (marked : List ℕ)
    (acc : List ℕ) :
    marked.foldl (fun a c => a ++ c_to_e c) acc =
      acc ++ marked.flatMap c_to_e := by
  induction marked generalizing acc with
  | nil => simp
  | cons c cs ih => simp [List.foldl_cons, ih, List.flatMap_cons]

theorem collectEdges_eq_flatMap (c_to_e : ℕ → List ℕ) (marked : List ℕ) :
    collectEdges c_to_e marked = marked.flatMap c_to_e := by
  rw [collectEdges, collectEdges_go]
  simp

/-- C5: the edge list handed to refinement has one entry per
(marked cell, incident edge) pair, in marked-cell order, without
deduplication: it is the concatenation of the incident-edge lists of the
marked cells in order, and every edge index occurs as many times as the
sum of its occurrences over the marked cells. -/
theorem collectEdges_spec (c_to_e : ℕ → List ℕ) (marked : List ℕ) :
    collectEdges c_to_e marked = marked.flatMap c_to_e ∧
    ∀ e : ℕ, (collectEdges c_to_e marked).count e =
      (marked.map fun c => (c_to_e c).count e).sum := by
  refine ⟨collectEdges_eq_flatMap c_to_e marked, ?_⟩
  intro e
  rw [collectEdges_eq_flatMap]
  induction marked with
  | nil => simp
  | cons c cs ih => simp [List.flatMap_cons, List.count_append, ih]

/-! ## The residual linear form (notebook lines 295 and 535)

    residual = fem.form(2*cell_area*w*(div(grad(uh))-f)**2*dx
                 + np.sqrt(2)*avg(cell_area**(1./2))*avg(w)*jump(grad(uh),n)**2*dS)

(line 295; the loop form at line 535 has `(div(grad(uh))+f)**2` instead)
assembled into a DG0 vector by `fem.assemble_vector`.  A mesh is modelled
by its cells and interior edges.  Each cell carries its area, the value of
`cell_area ** (1/2)` and quadrature data `(weight, div(grad(uh)), f)` for
the volume integrand; each interior edge carries the indices of its two
adjacent cells and quadrature data `(weight, jump(grad(uh), n))`.  The
test function `w` ranges over the DG0 basis (the indicator of each cell),
so the entry of cell `T` receives the full volume integral over `T` and,
from every incident interior facet, the facet integral weighted by
`avg(w) = 1/2`.  `sqrt2` stands for the constant `np.sqrt(2)`. -/

structure QuadPt where
  w : ℚ
  lap : ℚ
  fv : ℚ

structure Cell where
  area : ℚ
  sqrtArea : ℚ
  quad : List QuadPt

structure IEdge where
  c1 : ℕ
  c2 : ℕ
  quadJ : List (ℚ × ℚ)

structure Mesh where
  cells : List Cell
  iedges : List IEdge

/-- Volume integrand of the loop form (line 535): `(div(grad(uh)) + f)^2`. -/
def volIntLoop (c : Cell) : ℚ :=
(c.quad.map fun q => q.w * (q.lap + q.fv) ^ 2).sum

/-- Volume integrand of the pre-loop form (line 295): `(div(grad(uh)) - f)^2`. -/
def volIntPre (c : Cell) : ℚ :=
(c.quad.map fun q => q.w * (q.lap - q.fv) ^ 2).sum

/-- Facet integral of `jump(grad(uh), n)^2` over an interior edge. -/
def jumpInt (e : IEdge) : ℚ :=
(e.quadJ.map fun p => p.1 * p.2 ^ 2).sum

def dCell : Cell := ⟨0, 0, []⟩

def cellAt (m : Mesh) (i : ℕ) : Cell := m.cells.getD i dCell

/-- `avg(cell_area ** (1/2))` on an interior edge. -/
def avgSqrtArea (m : Mesh) (e : IEdge) : ℚ :=
((cellAt m e.c1).sqrtArea + (cellAt m e.c2).sqrtArea) / 2

/-- Contribution of an interior facet to one adjacent cell's entry:
`avg(w) = 1/2` for the DG0 indicator of that cell. -/
def eTerm (m : Mesh) (sqrt2 : ℚ) (e : IEdge) : ℚ :=
sqrt2 * avgSqrtArea m e * (1 / 2) * jumpInt e

/-- Accumulate `x` into entry `i` of the assembled vector. -/
def addAt (v : List ℚ) (i : ℕ) (x : ℚ) : List ℚ :=
v.set i (v.getD i 0 + x)

/-- Volume part of the assembled vector: entry `T` is
`2 * cell_area(T) * ∫_T integrand`. -/
def assembleVolWith (volInt : Cell → ℚ) (m : Mesh) : List ℚ :=
m.cells.map fun c => 2 * c.area * volInt c

/-- `fem.assemble_vector(residual).array`: the volume part plus, for every
interior facet, its contribution accumulated into both adjacent entries. -/
def assembleResWith (volInt : Cell → ℚ) (m : Mesh) (sqrt2 : ℚ) : List ℚ :=
m.iedges.foldl
  (fun v e => addAt (addAt v e.c1 (eTerm m sqrt2 e)) e.c2 (eTerm m sqrt2 e))
  (assembleVolWith volInt m)

/-- Assembled per-cell residual vector of the loop form (line 535). -/
def assembleRes (m : Mesh) (sqrt2 : ℚ) : List ℚ :=
assembleResWith volIntLoop m sqrt2

/-- Assembled per-cell residual vector of the pre-loop form (line 295). -/
def assembleResPre (m : Mesh) (sqrt2 : ℚ) : List ℚ :=
assembleResWith volIntPre m sqrt2

def incident (i : ℕ) (e : IEdge) : Bool := e.c1 == i || e.c2 == i

/-- Value of `avg(w)` on edge `e` for the DG0 indicator of cell `i`. -/
def avgW (i : ℕ) (e : IEdge) : ℚ :=
((if e.c1 = i then (1 : ℚ) else 0) + (if e.c2 = i then (1 : ℚ) else 0)) / 2

/-- Closed form of one entry of the assembled vector:
`2 * area(T) * ∫_T integrand` plus the facet terms of the interior edges
incident to `T`. -/
def cellIndicatorWith (volInt : Cell → ℚ) (m : Mesh) (sqrt2 : ℚ) (i : ℕ) : ℚ :=
2 * (cellAt m i).area * volInt (cellAt m i) +
  ((m.iedges.filter (incident i)).map
    fun e => sqrt2 * avgSqrtArea m e * avgW i e * jumpInt e).sum

/-- The per-cell indicator exactly as claim C1 words it: `area(T)` (not
twice the area) times the integral over `T` of `(div(grad(u_h)) - f)^2`,
plus the facet terms of the incident interior edges. -/
def specCellIndicator (m : Mesh) (sqrt2 : ℚ) (i : ℕ) : ℚ :=
(cellAt m i).area * volIntPre (cellAt m i) +
  ((m.iedges.filter (incident i)).map
    fun e => sqrt2 * avgSqrtArea m e * avgW i e * jumpInt e).sum

theorem length_addAt (v : List ℚ) (i : ℕ) (x : ℚ) :
    (addAt v i x).length = v.length := by
  simp [addAt]

theorem getD_addAt (v : List ℚ) (i j : ℕ) (x : ℚ) (hj : j < v.length) :
    (addAt v i x).getD j 0 = v.getD j 0 + if i = j then x else 0 := by
  by_cases h : i = j
  · subst h
    rw [addAt, if_pos rfl, List.getD_eq_getElem _ _ (by simpa using hj),
      List.getElem_set_self, List.getD_eq_getElem _ _ hj]
  · rw [addAt, if_neg h, add_zero, List.getD_eq_getElem _ _ (by simpa using hj),
      List.getElem_set_ne (by simpa using h), List.getD_eq_getElem _ _ hj]

theorem length_foldl_addAt (m : Mesh) (sqrt2 : ℚ) (es : List IEdge)
    (v : List ℚ) :
    (es.foldl
      (fun w e => addAt (addAt w e.c1 (eTerm m sqrt2 e)) e.c2 (eTerm m sqrt2 e))
      v).length = v.length := by
  induction es generalizing v with
  | nil => rfl
  | cons e es ih => rw [List.foldl_cons, ih, length_addAt, length_addAt]

theorem getD_foldl_addAt (m : Mesh) (sqrt2 : ℚ) (es : List IEdge)
    (v : List ℚ) (i : ℕ) (hi : i < v.length) :
    (es.foldl
      (fun w e => addAt (addAt w e.c1 (eTerm m sqrt2 e)) e.c2 (eTerm m sqrt2 e))
      v).getD i 0 =
    v.getD i 0 + (es.map fun e => 2 * avgW i e * eTerm m sqrt2 e).sum := by
  induction es generalizing v with
  | nil => simp
  | cons e es ih =>
      rw [List.foldl_cons, ih _ (by rw [length_addAt, length_addAt]; exact hi),
        List.map_cons, List.sum_cons,
        getD_addAt _ _ _ _ (by rw [length_addAt]; exact hi),
        getD_addAt _ _ _ _ hi, avgW]
      by_cases h1 : e.c1 = i <;> by_cases h2 : e.c2 = i <;>
        simp [h1, h2] <;> ring

theorem sum_avgW_filter (m : Mesh) (sqrt2 : ℚ) (i : ℕ) (es : List IEdge) :
    (es.map fun e => 2 * avgW i e * eTerm m sqrt2 e).sum =
    ((es.filter (incident i)).map
      fun e => sqrt2 * avgSqrtArea m e * avgW i e * jumpInt e).sum := by
  induction es with
  | nil => rfl
  | cons e es ih =>
      rw [List.map_cons, List.sum_cons, ih]
      by_cases h : incident i e
      · rw [List.filter_cons_of_pos h, List.map_cons, List.sum_cons]
        rw [eTerm]
        ring
      · have h1 : ¬e.c1 = i := by
          intro hc; exact h (by simp [incident, hc])
        have h2 : ¬e.c2 = i := by
          intro hc; exact h (by simp [incident, hc])
        rw [List.filter_cons_of_neg h, avgW]
        simp [h1, h2]

theorem getD_assembleVolWith (volInt : Cell → ℚ) (m : Mesh) (i : ℕ)
    (hi : i < m.cells.length) :
    (assembleVolWith volInt m).getD i 0 =
      2 * (cellAt m i).area * volInt (cellAt m i) := by
  rw [assembleVolWith, List.getD_eq_getElem _ _ (by simpa using hi),
    List.getElem_map, cellAt, List.getD_eq_getElem _ _ hi]

theorem assembleResWith_cell (volInt : Cell → ℚ) (m : Mesh) (sqrt2 : ℚ)
    (i : ℕ) (hi : i < m.cells.length) :
    (assembleResWith volInt m sqrt2).getD i 0 =
      cellIndicatorWith volInt m sqrt2 i := by
  rw [assembleResWith,
    getD_foldl_addAt m sqrt2 m.iedges (assembleVolWith volInt m) i
      (by simpa [assembleVolWith] using hi),
    getD_assembleVolWith volInt m i hi, sum_avgW_filter, cellIndicatorWith]

/-- A one-cell mesh: area `1`, `sqrtArea 1`, a single quadrature point of
weight `1` at which `div(grad(uh))` and `f` both evaluate to `1`; no
interior edges. -/
def cexMesh : Mesh := ⟨[⟨1, 1, [⟨1, 1, 1⟩]⟩], []⟩

/-- C1 counterexample: on `cexMesh` the assembled loop residual of cell 0
is `2 * area * (lap + f)^2 = 8`, while the claimed formula
`area * (lap - f)^2` gives `0`; the claim's per-cell equality is false. -/
theorem claim_C1_counterexample :
    (assembleRes cexMesh 1).getD 0 0 = 8 ∧
    specCellIndicator cexMesh 1 0 = 0 ∧
    (assembleRes cexMesh 1).getD 0 0 ≠ specCellIndicator cexMesh 1 0 := by
  refine ⟨?_, ?_, ?_⟩ <;>
    norm_num [assembleRes, assembleResWith, assembleVolWith, volIntLoop,
      volIntPre, cexMesh, specCellIndicator, cellAt, dCell, addAt, eTerm,
      jumpInt, avgSqrtArea, avgW, incident, cellIndicatorWith]

/-- C1 (amended): for every mesh, solution field and source term, the
per-cell error indicator assembled from the residual form equals, for each
cell `T`, `2 * area(T)` (twice the area, not the area) times the integral
over `T` of `(div(grad(u_h)) + f)^2` (the loop form, line 535; the
pre-loop form at line 295 uses `(div(grad(u_h)) - f)^2`), plus, for each
interior edge `E` of `T`, the facet term
`sqrt(2) * avg(sqrt(cell areas)) * avg(w) * ∫_E jump(grad(u_h), n)^2`
with `avg(w) = 1/2` for the cell's DG0 indicator. -/
theorem assembleRes_cell_value (m : Mesh) (sqrt2 : ℚ) (i : ℕ)
    (hi : i < m.cells.length) :
    (assembleRes m sqrt2).getD i 0 = cellIndicatorWith volIntLoop m sqrt2 i ∧
    (assembleResPre m sqrt2).getD i 0 = cellIndicatorWith volIntPre m sqrt2 i :=
  ⟨assembleResWith_cell volIntLoop m sqrt2 i hi,
   assembleResWith_cell volIntPre m sqrt2 i hi⟩

/-- A two-cell mesh with one interior edge, used to witness the theorems
with hypotheses. -/
def wMesh : Mesh := ⟨[⟨1, 1, [⟨1, 0, 2⟩]⟩, ⟨4, 2, []⟩], [⟨0, 1, [(1, 3)]⟩]⟩

theorem assembleRes_cell_value_witness :
    (assembleRes wMesh 2).getD 0 0 = cellIndicatorWith volIntLoop wMesh 2 0 ∧
    (assembleResPre wMesh 2).getD 0 0 = cellIndicatorWith volIntPre wMesh 2 0 :=
  assembleRes_cell_value wMesh 2 0 (by decide)

theorem jumpInt_nonneg (e : IEdge) (h : ∀ p ∈ e.quadJ, 0 ≤ p.1) :
    0 ≤ jumpInt e := by
  rw [jumpInt]
  refine List.sum_nonneg ?_
  intro x hx
  rcases List.mem_map.mp hx with ⟨p, hp, rfl⟩
  exact mul_nonneg (h p hp) (sq_nonneg _)

theorem volIntLoop_nonneg (c : Cell) (h : ∀ q ∈ c.quad, 0 ≤ q.w) :
    0 ≤ volIntLoop c := by
  rw [volIntLoop]
  refine List.sum_nonneg ?_
  intro x hx
  rcases List.mem_map.mp hx with ⟨q, hq, rfl⟩
  exact mul_nonneg (h q hq) (sq_nonneg _)

theorem cellAt_sqrtArea_nonneg (m : Mesh) (i : ℕ)
    (h : ∀ c ∈ m.cells, 0 ≤ c.sqrtArea) : 0 ≤ (cellAt m i).sqrtArea := by
  rw [cellAt]
  by_cases hi : i < m.cells.length
  · rw [List.getD_eq_getElem _ _ hi]
    exact h _ (List.getElem_mem hi)
  · rw [List.getD_eq_default _ _ (by omega)]
    norm_num [dCell]

theorem eTerm_nonneg (m : Mesh) (sqrt2 : ℚ) (e : IEdge)
    (hs2 : 0 ≤ sqrt2) (hsa : ∀ c ∈ m.cells, 0 ≤ c.sqrtArea)
    (hjw : ∀ p ∈ e.quadJ, 0 ≤ p.1) : 0 ≤ eTerm m sqrt2 e := by
  rw [eTerm]
  have h1 : 0 ≤ avgSqrtArea m e := by
    rw [avgSqrtArea]
    have := cellAt_sqrtArea_nonneg m e.c1 hsa
    have := cellAt_sqrtArea_nonneg m e.c2 hsa
    linarith
  have h2 : 0 ≤ jumpInt e := jumpInt_nonneg e hjw
  positivity

theorem mem_addAt_nonneg (v : List ℚ) (i : ℕ) (x : ℚ)
    (hv : ∀ y ∈ v, 0 ≤ y) (hx : 0 ≤ x) :
    ∀ y ∈ addAt v i x, 0 ≤ y := by
  intro y hy
  rcases List.mem_or_eq_of_mem_set hy with hmem | rfl
  · exact hv y hmem
  · have h0 : 0 ≤ v.getD i 0 := by
      by_cases hi : i < v.length
      · rw [List.getD_eq_getElem _ _ hi]
        exact hv _ (List.getElem_mem hi)
      · rw [List.getD_eq_default _ _ (by omega)]
    linarith

theorem assembleRes_mem_nonneg (m : Mesh) (sqrt2 : ℚ)
    (hs2 : 0 ≤ sqrt2)
    (harea : ∀ c ∈ m.cells, 0 ≤ c.area ∧ 0 ≤ c.sqrtArea)
    (hqw : ∀ c ∈ m.cells, ∀ q ∈ c.quad, 0 ≤ q.w)
    (hjw : ∀ e ∈ m.iedges, ∀ p ∈ e.quadJ, 0 ≤ p.1) :
    ∀ y ∈ assembleRes m sqrt2, 0 ≤ y := by
  have hsa : ∀ c ∈ m.cells, 0 ≤ c.sqrtArea := fun c hc => (harea c hc).2
  rw [assembleRes, assembleResWith]
  have hv0 : ∀ y ∈ assembleVolWith volIntLoop m, 0 ≤ y := by
    intro y hy
    rcases List.mem_map.mp hy with ⟨c, hc, rfl⟩
    exact mul_nonneg
      (mul_nonneg (by norm_num) (harea c hc).1)
      (volIntLoop_nonneg c (hqw c hc))
  have key : ∀ (es : List IEdge), (∀ e ∈ es, ∀ p ∈ e.quadJ, 0 ≤ p.1) →
      ∀ (v : List ℚ), (∀ y ∈ v, 0 ≤ y) →
      ∀ y ∈ es.foldl
        (fun w e => addAt (addAt w e.c1 (eTerm m sqrt2 e)) e.c2 (eTerm m sqrt2 e))
        v, 0 ≤ y := by
    intro es
    induction es with
    | nil => intro _ v hv; simpa using hv
    | cons e es ih =>
        intro hes v hv
        rw [List.foldl_cons]
        refine ih (fun x hx => hes x (List.mem_cons_of_mem e hx)) _ ?_
        have he : 0 ≤ eTerm m sqrt2 e :=
          eTerm_nonneg m sqrt2 e hs2 hsa (hes e (List.mem_cons_self e es))
        exact mem_addAt_nonneg _ _ _ (mem_addAt_nonneg _ _ _ hv he) he
  exact key m.iedges hjw _ hv0

/-- C8: the total residual, i.e. the sum of the assembled per-cell
indicator vector, is non-negative whenever the quadrature weights, the
cell areas, `cell_area ** (1/2)` and `np.sqrt(2)` are non-negative (each
summand is a non-negatively weighted integral of squares). -/
theorem tot_residual_nonneg (m : Mesh) (sqrt2 : ℚ)
    (hs2 : 0 ≤ sqrt2)
    (harea : ∀ c ∈ m.cells, 0 ≤ c.area ∧ 0 ≤ c.sqrtArea)
    (hqw : ∀ c ∈ m.cells, ∀ q ∈ c.quad, 0 ≤ q.w)
    (hjw : ∀ e ∈ m.iedges, ∀ p ∈ e.quadJ, 0 ≤ p.1) :
    0 ≤ (assembleRes m sqrt2).sum :=
  List.sum_nonneg (assembleRes_mem_nonneg m sqrt2 hs2 harea hqw hjw)

theorem tot_residual_nonneg_witness : 0 ≤ (assembleRes wMesh 2).sum :=
  tot_residual_nonneg wMesh 2 (by norm_num)
    (by decide) (by decide) (by decide)

/-! ## The driver loop (notebook lines 520-556)

    tot_residual = 1
    while tot_residual > 5e-2:
        ... tot_residual = np.sum(array_cell_res)   # on the current mesh
        ... msh = mesh.refine(...)[0]; uh, V = solve_poisson_homog_dirichlet(...)

The loop is modelled with explicit fuel so that non-termination is the
statement `= none` for every fuel.  `est s` is the total residual computed
on state `s` (mesh + solution) and `step s` is the rest of the body
(mark, refine, re-solve).  The result also carries the number of body
iterations that were executed. -/

def thresh : ℚ := 1 / 20

def adaptLoop {S : Type} (est : S → ℚ) (step : S → S) :
    ℕ → ℚ → S → Option (ℚ × S × ℕ)
| 0, _, _ => none
| fuel + 1, r, s =>
    if thresh < r then
      match adaptLoop est step fuel (est s) (step s) with
      | some (r2, s2, k) => some (r2, s2, k + 1)
      | none => none
    else some (r, s, 0)

/-- The notebook run: the residual accumulator starts at `1`. -/
def runAMR {S : Type} (est : S → ℚ) (step : S → S) (fuel : ℕ) (s0 : S) :
    Option (ℚ × S × ℕ) :=
adaptLoop est step fuel 1 s0

theorem adaptLoop_exit_le {S : Type} (est : S → ℚ) (step : S → S) :
    ∀ (fuel : ℕ) (r : ℚ) (s : S) (r2 : ℚ) (s2 : S) (k : ℕ),
      adaptLoop est step fuel r s = some (r2, s2, k) → r2 ≤ thresh := by
  intro fuel
  induction fuel with
  | zero => intro r s r2 s2 k h; exact absurd h (by simp [adaptLoop])
  | succ n ih =>
      intro r s r2 s2 k h
      rw [adaptLoop] at h
      by_cases hc : thresh < r
      · rw [if_pos hc] at h
        rcases hrec : adaptLoop est step n (est s) (step s) with _ | ⟨r3, s3, k3⟩
        · rw [hrec] at h; exact absurd h (by simp)
        · rw [hrec] at h
          simp only [Option.some.injEq, Prod.mk.injEq] at h
          rcases h with ⟨h1, _, _⟩
          exact h1 ▸ ih (est s) (step s) r3 s3 k3 hrec
      · rw [if_neg hc] at h
        simp only [Option.some.injEq, Prod.mk.injEq] at h
        rcases h with ⟨h1, _, _⟩
        exact h1 ▸ le_of_not_lt hc

theorem adaptLoop_diverge {S : Type} (est : S → ℚ) (step : S → S) :
    ∀ (fuel : ℕ) (r : ℚ) (s : S), thresh < r →
      (∀ j : ℕ, thresh < est (step^[j] s)) →
      adaptLoop est step fuel r s = none := by
  intro fuel
  induction fuel with
  | zero => intro r s _ _; rfl
  | succ n ih =>
      intro r s hr hall
      rw [adaptLoop, if_pos hr,
        ih (est s) (step s) (by simpa using hall 0)
          (fun j => by simpa [Function.iterate_succ_apply] using hall (j + 1))]

/-- C2: the adaptive loop terminates exactly when the total residual drops
to `5e-2` or below: whenever the run returns, the last computed total
residual is `≤ 5e-2`, and if every iterate's total residual stays above
`5e-2` the run returns `none` for every fuel bound (no maximum-iteration
safeguard: the loop never terminates). -/
theorem adaptive_loop_threshold {S : Type} (est : S → ℚ) (step : S → S)
    (s0 : S) :
    (∀ (fuel : ℕ) (r2 : ℚ) (s2 : S) (k : ℕ),
      runAMR est step fuel s0 = some (r2, s2, k) → r2 ≤ thresh) ∧
    ((∀ j : ℕ, thresh < est (step^[j] s0)) →
      ∀ fuel : ℕ, runAMR est step fuel s0 = none) := by
  constructor
  · intro fuel r2 s2 k h
    exact adaptLoop_exit_le est step fuel 1 s0 r2 s2 k h
  · intro hall fuel
    exact adaptLoop_diverge est step fuel 1 s0 (by norm_num [thresh]) hall

theorem adaptive_loop_threshold_witness :
    runAMR (fun _ : Unit => (1 : ℚ)) id 4 () = none :=
  (adaptive_loop_threshold (fun _ : Unit => (1 : ℚ)) id ()).2
    (fun j => by norm_num [thresh]) 4

/-- C9: the loop body always executes at least once, because the residual
accumulator starts at `1 > 5e-2`: every terminating run reports at least
one iteration, whatever the residuals of the meshes are. -/
theorem adaptive_loop_runs_once {S : Type} (est : S → ℚ) (step : S → S)
    (fuel : ℕ) (s0 : S) (r2 : ℚ) (s2 : S) (k : ℕ)
    (h : runAMR est step fuel s0 = some (r2, s2, k)) : 1 ≤ k := by
  rw [runAMR] at h
  cases fuel with
  | zero => exact absurd h (by simp [adaptLoop])
  | succ n =>
      rw [adaptLoop, if_pos (by norm_num [thresh])] at h
      rcases hrec : adaptLoop est step n (est s0) (step s0) with _ | ⟨r3, s3, k3⟩
      · rw [hrec] at h; exact absurd h (by simp)
      · rw [hrec] at h
        simp only [Option.some.injEq, Prod.mk.injEq] at h
        omega

theorem adaptive_loop_runs_once_witness :
    runAMR (fun _ : Unit => (0 : ℚ)) id 2 () = some (0, (), 1) ∧ 1 ≤ 1 :=
  ⟨by norm_num [runAMR, adaptLoop, thresh],
   adaptive_loop_runs_once (fun _ : Unit => (0 : ℚ)) id 2 () 0 () 1
    (by norm_num [runAMR, adaptLoop, thresh])⟩

/-! ## The MARK + REFINE step (notebook lines 539-551)

`stepAMR` is the loop body after the residual has been summed: rank the
cells, keep the leading `ceil(0.05 * num_cells)`, collect their incident
edges and hand them to the refinement routine.  The estimator (`est`,
returning the per-cell indicator vector), the cell-to-edge connectivity
(`cEdges`) and the refinement routine (`refine`) are external-library
services and enter as parameters. -/

def stepAMR {S : Type} (est : S → List ℚ) (cEdges : S → ℕ → List ℕ)
    (refine : S → List ℕ → S) (s : S) : S :=
refine s (collectEdges (cEdges s) (marked_cells (est s)))

theorem marked_cells_ne_nil (res : List ℚ) (h : 1 ≤ res.length) :
    marked_cells res ≠ [] := by
  intro hnil
  have h2 := length_marked_cells res
  rw [hnil, List.length_nil, num_cells_to_refine] at h2
  omega

theorem collectEdges_ne_nil (c_to_e : ℕ → List ℕ) (marked : List ℕ)
    (hm : marked ≠ []) (hce : ∀ c, c_to_e c ≠ []) :
    collectEdges c_to_e marked ≠ [] := by
  rw [collectEdges_eq_flatMap]
  cases marked with
  | nil => exact absurd rfl hm
  | cons c cs =>
      rw [List.flatMap_cons]
      intro hnil
      rcases List.append_eq_nil.mp hnil with ⟨h1, _⟩
      exact hce c h1

/-- C10: on a mesh with at least one cell the marked-cell list is
non-empty (`ceil(0.05 * n) ≥ 1`) and, since every (triangular) cell has a
non-empty incident-edge list, the edge list handed to refinement is
non-empty as well: the empty-marked-set failure mode is unreachable. -/
theorem marked_and_edges_nonempty (res : List ℚ) (c_to_e : ℕ → List ℕ)
    (hres : 1 ≤ res.length) (hce : ∀ c, c_to_e c ≠ []) :
    marked_cells res ≠ [] ∧ collectEdges c_to_e (marked_cells res) ≠ [] := by
  have hm := marked_cells_ne_nil res hres
  exact ⟨hm, collectEdges_ne_nil c_to_e (marked_cells res) hm hce⟩

theorem marked_and_edges_nonempty_witness :
    marked_cells [(5 : ℚ)] ≠ [] ∧
    collectEdges (fun _ => [0, 1, 2]) (marked_cells [(5 : ℚ)]) ≠ [] :=
  marked_and_edges_nonempty [(5 : ℚ)] (fun _ => [0, 1, 2]) (by decide)
    (fun _ => List.cons_ne_nil 0 [1, 2])

/-- Modelled from the spec: `mesh.refine` is provided by the external mesh
library (dolfinx) and is absent from this repository's sources; per the
spec it never coarsens, it splits the distinct marked edges, and each
split edge increases the cell count by a fixed multiplicity (at least one)
under triangular bisection.  The model keeps only the cell count, with
multiplicity one. -/
def refineModel (n : ℕ) (edges : List ℕ) : ℕ := n + edges.dedup.length

def estW (n : ℕ) : List ℚ := List.replicate n 0

def cEdgesW (_n _c : ℕ) : List ℕ := [0, 1, 2]

/-- C6: across the iterations of the adaptive loop the cell count strictly
increases: one MARK + REFINE step on a mesh with at least one cell always
splits a non-empty edge set, and refinement never coarsens, so every
iterate has strictly more cells than the previous one. -/
theorem cell_count_increases {S : Type} (est : S → List ℚ)
    (cEdges : S → ℕ → List ℕ) (refine : S → List ℕ → S) (ncells : S → ℕ)
    (hlen : ∀ s, (est s).length = ncells s)
    (hce : ∀ s c, cEdges s c ≠ [])
    (href : ∀ s es, es ≠ [] → ncells s < ncells (refine s es))
    (s0 : S) (h0 : 1 ≤ ncells s0) :
    ∀ j : ℕ, ncells ((stepAMR est cEdges refine)^[j] s0) <
      ncells ((stepAMR est cEdges refine)^[j + 1] s0) := by
  have hone : ∀ s : S, 1 ≤ ncells s → ncells s < ncells (stepAMR est cEdges refine s) := by
    intro s hs
    have hm : marked_cells (est s) ≠ [] :=
      marked_cells_ne_nil (est s) (by rw [hlen]; exact hs)
    have hed : collectEdges (cEdges s) (marked_cells (est s)) ≠ [] :=
      collectEdges_ne_nil (cEdges s) _ hm (hce s)
    exact href s _ hed
  have hinv : ∀ j : ℕ, 1 ≤ ncells ((stepAMR est cEdges refine)^[j] s0) := by
    intro j
    induction j with
    | zero => simpa using h0
    | succ n ih =>
        rw [Function.iterate_succ_apply']
        exact le_of_lt (lt_of_le_of_lt ih (by exact hone _ ih))
  intro j
  rw [Function.iterate_succ_apply']
  exact hone _ (hinv j)

theorem cell_count_increases_witness :
    (stepAMR estW cEdgesW refineModel)^[0] 1 <
      (stepAMR estW cEdgesW refineModel)^[1] 1 :=
  cell_count_increases estW cEdgesW refineModel id
    (fun s => List.length_replicate s 0)
    (fun _ _ => List.cons_ne_nil 0 [1, 2])
    (fun s es hes => by
      have hd1 : es.dedup ≠ [] := by
        intro hd
        exact hes ((List.dedup_eq_nil es).mp hd)
      have : 1 ≤ es.dedup.length := List.length_pos.mpr hd1
      simp only [refineModel, id]
      omega)
    1 (le_refl 1) 0

/-! ## Boundary marker and Dirichlet solve
(notebook lines 119-140 and 193)

    bc_marker = lambda x: np.isclose(x[0], 0.0) | np.isclose(x[0], 2.0)
                        | np.isclose(x[1], 0.0) | np.isclose(x[1], 1.0)

`np.isclose(a, b)` is `|a - b| <= atol + rtol * |b|` with `atol = 1e-8`
and `rtol = 1e-5`.  The domain is the rectangle `[0,2] × [0,1]`.  Mesh
node coordinates are dyadic rationals; a node of any mesh reachable by the
notebook's refinements is either exactly on an edge of the rectangle or at
distance at least `1/1000` from it, which `goodNode` records. -/

def atol : ℚ := 1 / 100000000

def rtol : ℚ := 1 / 100000

def isclose (a b : ℚ) : Bool := |a - b| ≤ atol + rtol * |b|

def bc_marker (x y : ℚ) : Bool :=
isclose x 0 || isclose x 2 || isclose y 0 || isclose y 1

/-- Membership in the four edges of the rectangle `[0,2] × [0,1]` (for a
point of the closed rectangle). -/
def onBoundary (x y : ℚ) : Prop := x = 0 ∨ x = 2 ∨ y = 0 ∨ y = 1

/-- A coordinate of a reachable mesh node: exactly `0`, exactly the upper
extent, or at distance at least `1/1000` from both. -/
def goodCoord (a hi : ℚ) : Prop :=
a = 0 ∨ a = hi ∨ (1 / 1000 ≤ a ∧ a ≤ hi - 1 / 1000)

def goodNode (p : ℚ × ℚ) : Prop := goodCoord p.1 2 ∧ goodCoord p.2 1

/-- Modelled from the spec: the linear solve inside
`solve_poisson_homog_dirichlet` is delegated to the external library
(dolfinx `LinearProblem` with an exact LU factorization), which is absent
from this repository's sources; per the spec it returns a solution field
that is exactly the boundary value `0` at every dof constrained by the
marker and some solver-determined nodal value (`g`) elsewhere. -/
def solveHomogDirichlet (g : ℚ × ℚ → ℚ) (p : ℚ × ℚ) : ℚ :=
if bc_marker p.1 p.2 then 0 else g p

theorem isclose_iff_abs (a b : ℚ) :
    isclose a b = true ↔ |a - b| ≤ atol + rtol * |b| := by
  simp [isclose]

theorem isclose_char (a hi : ℚ) (h : goodCoord a hi)
    (h1 : 1 ≤ hi) (h2 : hi ≤ 2) :
    (isclose a 0 = true ↔ a = 0) ∧ (isclose a hi = true ↔ a = hi) := by
  have e0 : isclose a 0 = true ↔ |a| ≤ 1 / 100000000 := by
    rw [isclose_iff_abs, atol, rtol, abs_zero, sub_zero]
    norm_num
  have ehi : isclose a hi = true ↔
      |a - hi| ≤ 1 / 100000000 + 1 / 100000 * hi := by
    rw [isclose_iff_abs, atol, rtol, abs_of_nonneg (by linarith : (0 : ℚ) ≤ hi)]
  rw [e0, ehi]
  rcases h with h | h | h
  · subst h
    refine ⟨iff_of_true (by rw [abs_zero]; norm_num) rfl,
      iff_of_false ?_ ?_⟩
    · rw [zero_sub, abs_neg, abs_of_nonneg (by linarith)]
      intro hcl
      linarith
    · intro hcl
      linarith [hcl]
  · subst h
    refine ⟨iff_of_false ?_ ?_,
      iff_of_true (by rw [sub_self, abs_zero]; linarith) rfl⟩
    · rw [abs_of_nonneg (by linarith)]
      intro hcl
      linarith
    · intro hcl
      linarith [hcl]
  · rcases h with ⟨hl, hr⟩
    refine ⟨iff_of_false ?_ ?_, iff_of_false ?_ ?_⟩
    · rw [abs_of_nonneg (by linarith)]
      intro hcl
      linarith
    · intro hcl
      linarith [hcl]
    · rw [abs_of_nonpos (by linarith)]
      intro hcl
      linarith
    · intro hcl
      linarith [hcl]

theorem bc_marker_iff_onBoundary (x y : ℚ)
    (hx : goodCoord x 2) (hy : goodCoord y 1) :
    bc_marker x y = true ↔ onBoundary x y := by
  have hcx := isclose_char x 2 hx (by norm_num) (by norm_num)
  have hcy := isclose_char y 1 hy (by norm_num) (by norm_num)
  rw [bc_marker, onBoundary]
  simp only [Bool.or_eq_true]
  rw [hcx.1, hcx.2, hcy.1, hcy.2, or_assoc, or_assoc]

/-- C7: on every mesh whose nodes lie on the rectangle's edges or at
distance at least `1/1000` from them (as all meshes reachable by the
notebook's refinements do), the dofs identified by the marker predicate
are exactly those on the four edges of the rectangle `[0,2] × [0,1]`, and
the returned solution field is exactly `0` at those dofs. -/
theorem bc_marker_and_solution (nodes : List (ℚ × ℚ)) (g : ℚ × ℚ → ℚ)
    (hgood : ∀ p ∈ nodes, goodNode p) :
    (∀ p ∈ nodes, (bc_marker p.1 p.2 = true ↔ onBoundary p.1 p.2)) ∧
    (∀ p ∈ nodes, onBoundary p.1 p.2 → solveHomogDirichlet g p = 0) := by
  have hiff : ∀ p ∈ nodes, (bc_marker p.1 p.2 = true ↔ onBoundary p.1 p.2) := by
    intro p hp
    exact bc_marker_iff_onBoundary p.1 p.2 (hgood p hp).1 (hgood p hp).2
  refine ⟨hiff, ?_⟩
  intro p hp hb
  rw [solveHomogDirichlet, if_pos ((hiff p hp).mpr hb)]

theorem bc_marker_and_solution_witness :
    (∀ p ∈ [((0 : ℚ), (1 : ℚ) / 2), ((2 : ℚ), (1 : ℚ)), ((1 : ℚ), (0 : ℚ)),
        ((1 : ℚ) / 2, (1 : ℚ) / 2)],
      (bc_marker p.1 p.2 = true ↔ onBoundary p.1 p.2)) ∧
    (∀ p ∈ [((0 : ℚ), (1 : ℚ) / 2), ((2 : ℚ), (1 : ℚ)), ((1 : ℚ), (0 : ℚ)),
        ((1 : ℚ) / 2, (1 : ℚ) / 2)],
      onBoundary p.1 p.2 → solveHomogDirichlet (fun _ => 7) p = 0) :=
  bc_marker_and_solution _ (fun _ => 7)
    (by
      intro p hp
      rcases List.mem_cons.mp hp with rfl | hp
      · exact ⟨Or.inl rfl, Or.inr (Or.inr (by norm_num))⟩
      rcases List.mem_cons.mp hp with rfl | hp
      · exact ⟨Or.inr (Or.inl rfl), Or.inr (Or.inl rfl)⟩
      rcases List.mem_cons.mp hp with rfl | hp
      · exact ⟨Or.inr (Or.inr (by norm_num)), Or.inl rfl⟩
      rcases List.mem_cons.mp hp with rfl | hp
      · exact ⟨Or.inr (Or.inr (by norm_num)), Or.inr (Or.inr (by norm_num))⟩
      · exact absurd hp (List.not_mem_nil p))

end AMR
